import Mathlib

/-!
Verification of the UpDownLoaderBot core (src/main.py): the reel-URL
extractor, the permission gate, the bounded-retry fetcher, and the message
dispatch orchestrator.  All definitions are shallow embeddings of the
Python source; the regular-expression `INSTAGRAM_REEL_PATTERN` is embedded
as a hand-compiled backtracking matcher with Python `re` semantics
(ordered alternation, greedy quantifiers, non-overlapping left-to-right
scanning for `findall`, end-anchored backtracking for `fullmatch`).
-/

namespace UpDown

/-! ## Character classes of the pattern
`INSTAGRAM_REEL_PATTERN = https?://(?:www\.)?instagram\.com/(?:[a-zA-Z0-9._-]+/)?reel/([a-zA-Z0-9_-]+)(?:/\?[^ ]*)?/?` -/

def isTokenChar (c : Char) : Bool := c.isAlphanum || c == '_' || c == '-'

def isSegChar (c : Char) : Bool := c.isAlphanum || c == '.' || c == '_' || c == '-'

def isNonSpace (c : Char) : Bool := c != ' '

/-! ## Backtracking engine

Each stage of the pattern is compiled to a function taking a continuation
`k`; ordered alternation (Python's leftmost-preference backtracking) is
expressed with `oalt`, and greedy quantifiers try the longest split first
(`plusSplits`, `starSplits`). -/

def oalt {α : Type} : Option α → Option α → Option α
  | some x, _ => some x
  | none, b => b

def stripLit : List Char → List Char → Option (List Char)
  | [], cs => some cs
  | _ :: _, [] => none
  | l :: ls, c :: cs => if c = l then stripLit ls cs else none

/-- Greedy `+` over a character class: the caller passes the maximal run
reversed (`rev`) and the remainder (`rest`); splits are tried longest
first, never empty. -/
def plusSplits {β : Type} (f : List Char → List Char → Option β) :
    List Char → List Char → Option β
  | [], _ => none
  | c :: revR, rest => oalt (f ((c :: revR).reverse) rest) (plusSplits f revR (c :: rest))

/-- Greedy `*` over a character class, longest split first, empty allowed. -/
def starSplits {β : Type} (k : List Char → Option β) :
    List Char → List Char → Option β
  | [], rest => k rest
  | c :: revR, rest => oalt (k rest) (starSplits k revR (c :: rest))

/-- `/?` : greedily try to consume a `/`, else continue without. -/
def slashOpt {β : Type} (k : List Char → Option β) (cs : List Char) : Option β :=
  oalt (match cs with | '/' :: r => k r | _ => none) (k cs)

/-- `(?:/\?[^ ]*)?/?` -/
def trailStage {β : Type} (k : List Char → Option β) (cs : List Char) : Option β :=
  oalt (match cs with
        | '/' :: '?' :: r =>
            starSplits (slashOpt k) (r.takeWhile isNonSpace).reverse (r.dropWhile isNonSpace)
        | _ => none)
       (slashOpt k cs)

/-- `([a-zA-Z0-9_-]+)` followed by the trailing part; returns the capture. -/
def tokenStage {β : Type} (k : List Char → Option β) (cs : List Char) :
    Option (List Char × β) :=
  plusSplits (fun tok rest => (trailStage k rest).map (fun b => (tok, b)))
    (cs.takeWhile isTokenChar).reverse (cs.dropWhile isTokenChar)

/-- `reel/` then the capture group. -/
def reelStage {β : Type} (k : List Char → Option β) (cs : List Char) :
    Option (List Char × β) :=
  match stripLit "reel/".toList cs with
  | some r => tokenStage k r
  | none => none

/-- `(?:[a-zA-Z0-9._-]+/)?` then `reel/…`. -/
def segStage {β : Type} (k : List Char → Option β) (cs : List Char) :
    Option (List Char × β) :=
  oalt (plusSplits (fun _seg rest =>
          match rest with
          | '/' :: r => reelStage k r
          | _ => none)
        (cs.takeWhile isSegChar).reverse (cs.dropWhile isSegChar))
       (reelStage k cs)

def domainStage {β : Type} (k : List Char → Option β) (cs : List Char) :
    Option (List Char × β) :=
  match stripLit "instagram.com/".toList cs with
  | some r => segStage k r
  | none => none

/-- `(?:www\.)?instagram\.com/…`. -/
def wwwStage {β : Type} (k : List Char → Option β) (cs : List Char) :
    Option (List Char × β) :=
  oalt (match stripLit "www.".toList cs with
        | some r => domainStage k r
        | none => none)
       (domainStage k cs)

/-- `https?://…`. -/
def schemeStage {β : Type} (k : List Char → Option β) (cs : List Char) :
    Option (List Char × β) :=
  match stripLit "http".toList cs with
  | none => none
  | some cs1 =>
    oalt (match cs1 with
          | 's' :: r =>
            (match stripLit "://".toList r with
             | some r2 => wwwStage k r2
             | none => none)
          | _ => none)
         (match stripLit "://".toList cs1 with
          | some r2 => wwwStage k r2
          | none => none)

/-- `re.match` at the head of `cs` (first match in backtracking order):
returns the capture of group 1 and the rest of the string after the
match's span. -/
def reelMatchAt (cs : List Char) : Option (List Char × List Char) :=
  schemeStage (fun r => some r) cs

def endCheck : List Char → Option Unit
  | [] => some ()
  | _ :: _ => none

/-- `INSTAGRAM_REEL_PATTERN.fullmatch`: end-anchored backtracking. -/
def reelFullmatch (cs : List Char) : Bool :=
  (schemeStage endCheck cs).isSome

/-- `re.findall` scanning: try every position left to right, resume after
the span of each match (fuelled; `cs.length` fuel always suffices since a
match consumes at least the scheme literal). -/
def scanFuel : Nat → List Char → List (List Char)
  | 0, _ => []
  | _ + 1, [] => []
  | fuel + 1, c :: cs =>
    match reelMatchAt (c :: cs) with
    | some (tok, r) => tok :: scanFuel fuel r
    | none => scanFuel fuel cs

def extractIds (cs : List Char) : List (List Char) := scanFuel cs.length cs

/-- `re.findall(INSTAGRAM_REEL_PATTERN, text)` (group-1 captures). -/
def extract (s : String) : List String := (extractIds s.toList).map List.asString

/-- `INSTAGRAM_REEL_PATTERN.fullmatch(text)` as a boolean (line 75). -/
def isLinkOnly (s : String) : Bool := reelFullmatch s.toList

/-! ## Generative form of the URL grammar

Written from the spec's grammar
`https?://(www.)?<platform-domain>/(<optional-segment>/)?reel/<token>(/?<query>?)/?`;
used to relate the matcher to the language it accepts. -/

inductive TrailKind : Type
  | tnone : TrailKind
  | tslash : TrailKind
  | tquery (q : List Char) : TrailKind
deriving DecidableEq, Repr

def TrailKind.render : TrailKind → List Char
  | .tnone => []
  | .tslash => ['/']
  | .tquery q => '/' :: '?' :: q

def TrailKind.wf : TrailKind → Prop
  | .tquery q => ∀ c ∈ q, isNonSpace c = true
  | _ => True

def segRender : Option (List Char) → List Char
  | some s => s ++ ['/']
  | none => []

def segWf : Option (List Char) → Prop
  | some s => s ≠ [] ∧ ∀ c ∈ s, isSegChar c = true
  | none => True

structure Link : Type where
  secure : Bool
  www : Bool
  seg : Option (List Char)
  tok : List Char
  trail : TrailKind
deriving DecidableEq, Repr

def Link.render (l : Link) : List Char :=
  "http".toList ++ (if l.secure then ['s'] else []) ++ "://".toList ++
  (if l.www then "www.".toList else []) ++ "instagram.com/".toList ++
  segRender l.seg ++ "reel/".toList ++ l.tok ++ l.trail.render

def Link.wf (l : Link) : Prop :=
  l.tok ≠ [] ∧ (∀ c ∈ l.tok, isTokenChar c = true) ∧ segWf l.seg ∧ l.trail.wf

/-- Leading/trailing whitespace removal ("trimmed text" in the spec). -/
def trimSpaces (s : String) : String :=
  (((s.toList.dropWhile Char.isWhitespace).reverse.dropWhile Char.isWhitespace).reverse).asString

/-! ## Resilient fetcher: `download_reel` (lines 154-180)

An attempt's provider activity (resolve + is-video check + materialize +
file validation, lines 160-167) is abstracted as one oracle call per
attempt number; any raised exception corresponds to `.err msg` where
`msg = str(e)`.  The trace records attempts and sleeps in order. -/

def MAX_RETRIES : Nat := 3

def RETRY_DELAY : Nat := 2

inductive AttemptResult : Type
  | ok (path : String)
  | err (msg : String)
deriving DecidableEq, Repr

inductive FetchEvent : Type
  | attempt (n : Nat)
  | sleep (d : Nat)
deriving DecidableEq, Repr

/-- line 173: `last_error = f"Unexpected error: {str(e)} for {shortcode}"` -/
def captured (msg shortcode : String) : String :=
  "Unexpected error: " ++ msg ++ " for " ++ shortcode

/-- Modelled from the spec: the `ErrorDownload` class (file exceptions.py
is not under src/); per the spec's `DownloadError` it carries "the last
captured error message and the total attempt count consumed", matching
the call site `raise ErrorDownload(last_error, retry_count)` (line 180). -/
structure ErrorDownload : Type where
  lastError : Option String
  retryCount : Nat
deriving DecidableEq, Repr

set_option linter.unusedVariables false in
def downloadLoop (provider : Nat → AttemptResult) (shortcode : String) :
    Nat → Option String → List FetchEvent → List FetchEvent × Except ErrorDownload String
  | retryCount, lastError, trace =>
    if h : retryCount ≤ MAX_RETRIES then
      match provider retryCount with
      | .ok p => (trace ++ [.attempt retryCount], .ok p)
      | .err m =>
        let le := some (captured m shortcode)
        let tr := trace ++ [.attempt retryCount]
        let tr2 := if retryCount + 1 ≤ MAX_RETRIES then tr ++ [.sleep RETRY_DELAY] else tr
        downloadLoop provider shortcode (retryCount + 1) le tr2
    else (trace, .error ⟨lastError, retryCount⟩)
termination_by rc _ _ => MAX_RETRIES + 1 - rc
decreasing_by simp [MAX_RETRIES] at h ⊢; omega

/-- `download_reel(shortcode)`: `retry_count` starts at 1 (line 155). -/
def download_reel (provider : Nat → AttemptResult) (shortcode : String) :
    List FetchEvent × Except ErrorDownload String :=
  downloadLoop provider shortcode 1 none []

/-! ## Permission gate: `check_bot_permissions` (lines 107-138) -/

inductive ChatKind : Type
  | privateChat
  | group
  | supergroup
  | channel
deriving DecidableEq, Repr

/-- The bot's membership record.  `administrator` corresponds to a
`ChatMemberAdministrator` instance; its capability fields model
`getattr(bot_member, right, False)`: `none` is a missing attribute. -/
inductive BotMember : Type
  | administrator (canSendMessages canSendMediaMessages canSendOtherMessages : Option Bool)
  | member
  | other (status : String)
deriving DecidableEq, Repr

def BotMember.statusStr : BotMember → String
  | .administrator _ _ _ => "administrator"
  | .member => "member"
  | .other s => s

inductive Lookup : Type
  | ok (m : BotMember)
  | badRequest (msg : String)
deriving DecidableEq, Repr

/-- Returns the Python return value (`none` = implicit `return None`) and
the number of `chat.get_member` calls performed. -/
def check_bot_permissions (chat : Option ChatKind) (lookup : Lookup) :
    Option Bool × Nat :=
  match chat with
  | none => (some false, 0)
  | some ct =>
    if ct = .privateChat then (some true, 0)
    else
      match lookup with
      | .badRequest _ => (some false, 1)
      | .ok m =>
        if ct = .supergroup ∧ m.statusStr = "administrator" then (some true, 1)
        else
          match m with
          | .administrator a b c =>
            if a.getD false && b.getD false && c.getD false then (some true, 1)
            else (some false, 1)
          | .member => (some true, 1)
          | .other _ => (none, 1)

/-- The caller's `if not await check_bot_permissions(...)` truthiness. -/
def authorizeDecision (chat : Option ChatKind) (lookup : Lookup) : Bool :=
  match (check_bot_permissions chat lookup).1 with
  | some true => true
  | _ => false

def lookupCount (chat : Option ChatKind) (lookup : Lookup) : Nat :=
  (check_bot_permissions chat lookup).2

/-! ## Dispatch orchestrator: `handle_message` (lines 56-104)

Side effects against the chat are recorded as a trace of successfully
performed transport calls; each transport call may instead raise (its
oracle flag false), which the per-identifier `try/except` catches.  The
chat-action calls (lines 79, 83) dereference `update.message`, which is
`None` for channel posts and then raises `AttributeError` inside the
`try`.  A failing `set_reaction` (line 104) happens inside the `except`
block, so it propagates and aborts the handler (second component
`false`). -/

structure Msg : Type where
  text : String
deriving DecidableEq, Repr

inductive Effect : Type
  | chatAction
  | sendVideo (path caption : String)
  | replyVideo (path caption : String)
  | deleteOriginal
  | setReaction
  | notice
deriving DecidableEq, Repr

structure IterOracle : Type where
  act1 : Bool
  act2 : Bool
  send : Bool
  del : Bool
  react : Bool
deriving DecidableEq, Repr

def allOk : Nat → IterOracle := fun _ => ⟨true, true, true, true, true⟩

/-- line 85: `source_link = f"https://instagram.com/reel/{reel_id}"` -/
def sourceLink (rid : String) : String := "https://instagram.com/reel/" ++ rid

/-- The `try` body for one identifier (lines 78-101).  Returns the
successful effects in order and whether an exception was raised. -/
def iterBody (msgPresent linkOnly : Bool) (fetch : String → Except String String)
    (o : IterOracle) (rid : String) : List Effect × Bool :=
  if !msgPresent then ([], true)
  else if !o.act1 then ([], true)
  else
    match fetch rid with
    | .error _ => ([.chatAction], true)
    | .ok path =>
      if !o.act2 then ([.chatAction], true)
      else
        if linkOnly then
          if !o.send then ([.chatAction, .chatAction], true)
          else if !o.del then ([.chatAction, .chatAction, .sendVideo path (sourceLink rid)], true)
          else ([.chatAction, .chatAction, .sendVideo path (sourceLink rid), .deleteOriginal], false)
        else
          if !o.send then ([.chatAction, .chatAction], true)
          else ([.chatAction, .chatAction, .replyVideo path (sourceLink rid)], false)

/-- The `for reel_id in reel_matches` loop (line 77); `i` is the index
into the oracle.  Second component: `true` iff the loop ran to completion
(no exception escaped the handler). -/
def runIters (msgPresent linkOnly : Bool) (fetch : String → Except String String)
    (oracle : Nat → IterOracle) : List String → Nat → List Effect × Bool
  | [], _ => ([], true)
  | rid :: rest, i =>
    let step := iterBody msgPresent linkOnly fetch (oracle i) rid
    if step.2 then
      if (oracle i).react then
        let next := runIters msgPresent linkOnly fetch oracle rest (i + 1)
        (step.1 ++ .setReaction :: next.1, next.2)
      else (step.1, false)
    else
      let next := runIters msgPresent linkOnly fetch oracle rest (i + 1)
      (step.1 ++ next.1, next.2)

/-- `handle_message` (lines 56-104).  `message`/`channelPost` are
`update.message` / `update.channel_post`; `permOk` is the permission-gate
verdict; `replyOk` is whether the denial notice call succeeds (a failing
notice raises `BadRequest`, caught on line 68). -/
def handle (message channelPost : Option Msg) (isChannel : Bool)
    (permOk replyOk : Bool) (fetch : String → Except String String)
    (oracle : Nat → IterOracle) : List Effect × Bool :=
  match oalt message channelPost with
  | none => ([], true)
  | some eff =>
    if eff.text = "" then ([], true)
    else if !permOk then
      (if !isChannel && replyOk then ([.notice], true) else ([], true))
    else
      runIters message.isSome (isLinkOnly eff.text) fetch oracle (extract eff.text) 0

/-! ## Spec-side descriptions used to state the claims -/

/-- The effects the spec expects for one successfully fetched identifier
(activity signal twice, then delivery; standalone post + deletion when the
message was link-only, threaded reply otherwise). -/
def deliveredBlock (linkOnly : Bool) (pathF : String → String) (rid : String) : List Effect :=
  .chatAction :: .chatAction ::
    (if linkOnly then [.sendVideo (pathF rid) (sourceLink rid), .deleteOriginal]
     else [.replyVideo (pathF rid) (sourceLink rid)])

/-- All effects of one identifier's iteration including the failure
reaction (when the iteration raised and the reaction call succeeds). -/
def perIdEvents (msgPresent linkOnly : Bool) (fetch : String → Except String String)
    (o : IterOracle) (rid : String) : List Effect :=
  let step := iterBody msgPresent linkOnly fetch o rid
  step.1 ++ (if step.2 then [.setReaction] else [])

/-- Checks that every `deleteOriginal` in a trace immediately follows a
successful `sendVideo`. -/
def delAfterSend : List Effect → Bool
  | [] => true
  | .sendVideo _ _ :: .deleteOriginal :: rest => delAfterSend rest
  | .deleteOriginal :: _ => false
  | _ :: rest => delAfterSend rest

/-- Text made of links separated by non-matching filler. -/
def mkText : List (Link × List Char) → List Char
  | [] => []
  | (l, j) :: rest => l.render ++ j ++ mkText rest

/-- The head of `cs` (if any) fails `p`. -/
def headNot (p : Char → Bool) : List Char → Prop
  | [] => True
  | c :: _ => p c = false

/-- What may follow a rendered link (trail-dependently) without altering
which token it captures: nothing; after a bare token, any character that
is neither a token character nor `/`; after a `/`-terminated link, any
non-token character other than `?`; after a `/?query` trail, only a space
(`[^ ]*` absorbs every other character). -/
def FollowerOk : TrailKind → List Char → Prop
  | _, [] => True
  | .tnone, h0 :: _ => isTokenChar h0 = false ∧ h0 ≠ '/'
  | .tslash, h0 :: _ => isTokenChar h0 = false ∧ h0 ≠ '?'
  | .tquery _, h0 :: _ => h0 = ' '

/-- Does `cs` begin with the scheme literal `http`? -/
def startsHttp : List Char → Bool
  | 'h' :: 't' :: 't' :: 'p' :: _ => true
  | _ => false

/-- Does `cs` contain an occurrence of `http`?  A position where a match
of the pattern could begin must start with this literal. -/
def hasHttp : List Char → Bool
  | [] => false
  | c :: t => startsHttp (c :: t) || hasHttp t

/-- Empty, or beginning with the scheme literal (the shape of `mkText`
output: nothing, or a rendered link first). -/
def SchemeHead (cs : List Char) : Prop :=
  cs = [] ∨ ∃ r, cs = 'h' :: 't' :: 't' :: 'p' :: r

/-- Well-separatedness for `mkText`: each link well-formed, each filler
without an occurrence of the scheme literal `http`, and each link's
follower (its filler, then the rest of the text) starting with a
boundary character its trail cannot absorb. -/
def SepOk : List (Link × List Char) → Prop
  | [] => True
  | (l, j) :: rest =>
      l.wf ∧ hasHttp j = false ∧ FollowerOk l.trail (j ++ mkText rest) ∧ SepOk rest

/-- The shapes the trailing part `(?:/\?[^ ]*)?/?` of a match can take. -/
def TrailOf (t : List Char) : Prop :=
  t = [] ∨ t = ['/'] ∨ ∃ q, t = '/' :: '?' :: q ∧ ∀ c ∈ q, isNonSpace c = true

/-- The strings that can follow the token of a rendered link: nothing, or
something whose first character is not a token character. -/
def HeadNotTok (cs : List Char) : Prop :=
  cs = [] ∨ ∃ h0 t, cs = h0 :: t ∧ isTokenChar h0 = false

/-! ## Theorems -/

theorem oalt_some {α : Type} {a : Option α} (b : Option α) {x : α} (h : a = some x) :
    oalt a b = some x := by subst h; rfl

theorem oalt_eq_some {α : Type} {a b : Option α} {x : α} :
    oalt a b = some x ↔ a = some x ∨ (a = none ∧ b = some x) := by
  cases a <;> simp [oalt]

theorem stripLit_append (l r : List Char) : stripLit l (l ++ r) = some r := by
  induction l with
  | nil => rfl
  | cons c ls ih => simp [stripLit, ih]

theorem stripLit_eq_some : ∀ {l cs r : List Char}, stripLit l cs = some r → cs = l ++ r := by
  intro l
  induction l with
  | nil => intro cs r h; simpa [stripLit] using h
  | cons c ls ih =>
    intro cs r h
    cases cs with
    | nil => simp [stripLit] at h
    | cons a cs' =>
      rw [stripLit] at h
      by_cases ha : a = c
      · subst ha
        simp only [if_pos rfl] at h
        simp [ih h]
      · simp [ha] at h

theorem takeWhile_all_append {p : Char → Bool} :
    ∀ {s r : List Char}, (∀ c ∈ s, p c = true) → headNot p r →
      (s ++ r).takeWhile p = s ∧ (s ++ r).dropWhile p = r := by
  intro s
  induction s with
  | nil =>
    intro r _ hr
    cases r with
    | nil => exact ⟨rfl, rfl⟩
    | cons c t =>
      simp only [headNot] at hr
      simp [List.takeWhile_cons, List.dropWhile_cons, hr]
  | cons a s' ih =>
    intro r hs hr
    have ha : p a = true := hs a (List.mem_cons_self _ _)
    have := ih (fun c hc => hs c (List.mem_cons_of_mem _ hc)) hr
    simp [List.takeWhile_cons, List.dropWhile_cons, ha, this.1, this.2]

theorem mem_takeWhile_p {p : Char → Bool} :
    ∀ {cs : List Char} {c : Char}, c ∈ cs.takeWhile p → p c = true := by
  intro cs
  induction cs with
  | nil => intro c h; simp [List.takeWhile] at h
  | cons a t ih =>
    intro c h
    rw [List.takeWhile_cons] at h
    by_cases ha : p a = true
    · rw [if_pos ha] at h
      rcases List.mem_cons.mp h with rfl | h2
      · exact ha
      · exact ih h2
    · simp [ha] at h

theorem plusSplits_first {β : Type} {f : List Char → List Char → Option β}
    {rev rest : List Char} {x : β} (hrev : rev ≠ []) (h : f rev.reverse rest = some x) :
    plusSplits f rev rest = some x := by
  cases rev with
  | nil => exact absurd rfl hrev
  | cons c revR => exact oalt_some _ h

theorem plusSplits_inv {β : Type} {f : List Char → List Char → Option β} :
    ∀ {rev rest : List Char} {x : β}, plusSplits f rev rest = some x →
      ∃ tok rest2, rev.reverse ++ rest = tok ++ rest2 ∧ tok ≠ [] ∧
        (∀ a ∈ tok, a ∈ rev) ∧ f tok rest2 = some x := by
  intro rev
  induction rev with
  | nil => intro rest x h; simp [plusSplits] at h
  | cons c revR ih =>
    intro rest x h
    rcases oalt_eq_some.mp h with h1 | ⟨_, h2⟩
    · exact ⟨(c :: revR).reverse, rest, rfl, by simp, fun a ha => by
        simpa using List.mem_reverse.mp ha, h1⟩
    · obtain ⟨tok, rest2, heq, hne, hmem, hf⟩ := ih h2
      refine ⟨tok, rest2, ?_, hne, fun a ha => List.mem_cons_of_mem _ (hmem a ha), hf⟩
      rw [List.reverse_cons, List.append_assoc]
      simpa using heq

theorem starSplits_first {β : Type} {k : List Char → Option β}
    {rev rest : List Char} {x : β} (h : k rest = some x) :
    starSplits k rev rest = some x := by
  cases rev with
  | nil => exact h
  | cons c revR => exact oalt_some _ h

theorem starSplits_inv {β : Type} {k : List Char → Option β} :
    ∀ {rev rest : List Char} {x : β}, starSplits k rev rest = some x →
      ∃ pre rest2, rev.reverse ++ rest = pre ++ rest2 ∧
        (∀ a ∈ pre, a ∈ rev) ∧ k rest2 = some x := by
  intro rev
  induction rev with
  | nil => intro rest x h; exact ⟨[], rest, rfl, by simp, h⟩
  | cons c revR ih =>
    intro rest x h
    rcases oalt_eq_some.mp h with h1 | ⟨_, h2⟩
    · exact ⟨(c :: revR).reverse, rest, rfl, fun a ha => by
        simpa using List.mem_reverse.mp ha, h1⟩
    · obtain ⟨pre, rest2, heq, hmem, hk⟩ := ih h2
      refine ⟨pre, rest2, ?_, fun a ha => List.mem_cons_of_mem _ (hmem a ha), hk⟩
      rw [List.reverse_cons, List.append_assoc]
      simpa using heq

theorem slashOpt_inv {β : Type} {k : List Char → Option β} {cs : List Char} {x : β}
    (h : slashOpt k cs = some x) :
    (∃ r, cs = '/' :: r ∧ k r = some x) ∨ k cs = some x := by
  unfold slashOpt at h
  rcases oalt_eq_some.mp h with h1 | ⟨_, h2⟩
  · split at h1
    · exact Or.inl ⟨_, rfl, h1⟩
    · exact absurd h1 (by simp)
  · exact Or.inr h2

theorem followerOk_nil (tr : TrailKind) : FollowerOk tr [] := by
  cases tr <;> trivial

theorem slashOpt_not_slash {β : Type} {k : List Char → Option β} {h0 : Char} {t : List Char}
    (h : h0 ≠ '/') : slashOpt k (h0 :: t) = k (h0 :: t) := by
  unfold slashOpt
  split
  next r heq =>
    exact absurd (List.head_eq_of_cons_eq heq) h
  next => rfl

theorem trailStage_eq_slashOpt {β : Type} {k : List Char → Option β} {h0 : Char}
    {t : List Char} (h : ¬(h0 = '/' ∧ ∃ r, t = '?' :: r)) :
    trailStage k (h0 :: t) = slashOpt k (h0 :: t) := by
  unfold trailStage
  split
  next r heq =>
    exact absurd ⟨List.head_eq_of_cons_eq heq,
      r, List.tail_eq_of_cons_eq heq⟩ h
  next => rfl

theorem trailStage_render {β : Type} {k : List Char → Option β} {b : β}
    (tr : TrailKind) (htr : tr.wf) {follower : List Char}
    (hf : FollowerOk tr follower) (hk : k follower = some b) :
    trailStage k (tr.render ++ follower) = some b := by
  cases tr with
  | tnone =>
    cases follower with
    | nil => exact hk
    | cons h0 t =>
      obtain ⟨hnt, hns⟩ := hf
      show trailStage k (h0 :: t) = some b
      rw [trailStage_eq_slashOpt (fun hc => hns hc.1), slashOpt_not_slash hns]
      exact hk
  | tslash =>
    cases follower with
    | nil =>
      show oalt (k []) (k ['/']) = some b
      exact oalt_some _ hk
    | cons h0 t =>
      obtain ⟨hnt, hq⟩ := hf
      show trailStage k ('/' :: h0 :: t) = some b
      rw [trailStage_eq_slashOpt (fun hc => hq (List.head_eq_of_cons_eq hc.2.choose_spec))]
      show oalt (k (h0 :: t)) (k ('/' :: h0 :: t)) = some b
      exact oalt_some _ hk
  | tquery q =>
    have hfl : follower = [] ∨ ∃ t, follower = ' ' :: t := by
      cases follower with
      | nil => exact Or.inl rfl
      | cons h0 t => exact Or.inr ⟨t, by rw [hf]⟩
    have hn : headNot isNonSpace follower := by
      rcases hfl with rfl | ⟨t, rfl⟩
      · trivial
      · show isNonSpace ' ' = false
        decide
    have htw := takeWhile_all_append (p := isNonSpace) htr hn
    have hso : slashOpt k follower = some b := by
      rcases hfl with rfl | ⟨t, rfl⟩
      · exact hk
      · exact hk
    show oalt (starSplits (slashOpt k) ((q ++ follower).takeWhile isNonSpace).reverse
        ((q ++ follower).dropWhile isNonSpace)) (slashOpt k ('/' :: '?' :: (q ++ follower))) =
      some b
    rw [htw.1, htw.2]
    exact oalt_some _ (starSplits_first hso)

theorem trailStage_inv {β : Type} {k : List Char → Option β} {cs : List Char} {x : β}
    (h : trailStage k cs = some x) :
    ∃ t r, cs = t ++ r ∧ TrailOf t ∧ k r = some x := by
  unfold trailStage at h
  rcases oalt_eq_some.mp h with h1 | ⟨_, h2⟩
  · split at h1
    next r =>
      obtain ⟨pre, rest2, heq, hmem, hso⟩ := starSplits_inv h1
      rw [List.reverse_reverse, List.takeWhile_append_dropWhile] at heq
      have hpre : ∀ a ∈ pre, isNonSpace a = true := fun a ha =>
        mem_takeWhile_p (List.mem_reverse.mp (hmem a ha))
      rcases slashOpt_inv hso with ⟨r2, rfl, hk2⟩ | hk2
      · refine ⟨'/' :: '?' :: (pre ++ ['/']), r2, ?_, ?_, hk2⟩
        · simp [heq]
        · refine Or.inr (Or.inr ⟨pre ++ ['/'], rfl, ?_⟩)
          intro c hc
          rcases List.mem_append.mp hc with hcl | hcr
          · exact hpre c hcl
          · simp at hcr
            subst hcr
            decide
      · refine ⟨'/' :: '?' :: pre, rest2, ?_, Or.inr (Or.inr ⟨pre, rfl, hpre⟩), hk2⟩
        simp [heq]
    next => exact absurd h1 (by simp)
  · rcases slashOpt_inv h2 with ⟨r, rfl, hk2⟩ | hk2
    · exact ⟨['/'], r, rfl, Or.inr (Or.inl rfl), hk2⟩
    · exact ⟨[], cs, rfl, Or.inl rfl, hk2⟩

theorem tokenStage_render {β : Type} {k : List Char → Option β} {b : β} {tok : List Char}
    (htne : tok ≠ []) (htokc : ∀ c ∈ tok, isTokenChar c = true)
    (tr : TrailKind) (htr : tr.wf) {follower : List Char} (hf : FollowerOk tr follower)
    (hk : k follower = some b) :
    tokenStage k (tok ++ (tr.render ++ follower)) = some (tok, b) := by
  have hb : headNot isTokenChar (tr.render ++ follower) := by
    cases tr with
    | tnone =>
      cases follower with
      | nil => trivial
      | cons h0 t => exact hf.1
    | tslash =>
      show isTokenChar '/' = false
      decide
    | tquery q =>
      show isTokenChar '/' = false
      decide
  have htw := takeWhile_all_append htokc hb
  unfold tokenStage
  rw [htw.1, htw.2]
  refine plusSplits_first (by simpa using htne) ?_
  rw [List.reverse_reverse]
  simp [trailStage_render tr htr hf hk]

theorem tokenStage_inv {β : Type} {k : List Char → Option β} {cs tok : List Char} {b : β}
    (h : tokenStage k cs = some (tok, b)) :
    ∃ rest2, cs = tok ++ rest2 ∧ tok ≠ [] ∧ (∀ c ∈ tok, isTokenChar c = true) ∧
      trailStage k rest2 = some b := by
  unfold tokenStage at h
  obtain ⟨tok2, rest2, heq, hne, hmem, hf⟩ := plusSplits_inv h
  rw [List.reverse_reverse, List.takeWhile_append_dropWhile] at heq
  rcases hmap : trailStage k rest2 with _ | b2
  · rw [hmap] at hf
    simp at hf
  · rw [hmap] at hf
    simp only [Option.map_some', Option.some_inj, Prod.mk.injEq] at hf
    obtain ⟨rfl, rfl⟩ := hf
    exact ⟨rest2, heq, hne,
      fun c hc => mem_takeWhile_p (List.mem_reverse.mp (hmem c hc)), hmap⟩

theorem reelStage_render {β : Type} {k : List Char → Option β} {b : β} {tok : List Char}
    (htne : tok ≠ []) (htokc : ∀ c ∈ tok, isTokenChar c = true)
    (tr : TrailKind) (htr : tr.wf) {follower : List Char} (hf : FollowerOk tr follower)
    (hk : k follower = some b) :
    reelStage k ("reel/".toList ++ (tok ++ (tr.render ++ follower))) = some (tok, b) := by
  unfold reelStage
  simp only [stripLit_append]
  exact tokenStage_render htne htokc tr htr hf hk

theorem reelStage_inv {β : Type} {k : List Char → Option β} {cs tok : List Char} {b : β}
    (h : reelStage k cs = some (tok, b)) :
    ∃ r, cs = "reel/".toList ++ r ∧ tokenStage k r = some (tok, b) := by
  unfold reelStage at h
  split at h
  next r heq => exact ⟨r, stripLit_eq_some heq, h⟩
  next => simp at h

theorem headNotTok_render_follow (tr : TrailKind) {follower : List Char}
    (hf : FollowerOk tr follower) : HeadNotTok (tr.render ++ follower) := by
  cases tr with
  | tnone =>
    cases follower with
    | nil => exact Or.inl rfl
    | cons h0 t => exact Or.inr ⟨h0, t, rfl, hf.1⟩
  | tslash => exact Or.inr ⟨'/', follower, rfl, by decide⟩
  | tquery q => exact Or.inr ⟨'/', '?' :: (q ++ follower), rfl, by decide⟩

theorem stripLit_reel_none {tok X : List Char}
    (htokc : ∀ c ∈ tok, isTokenChar c = true) (hre : tok ≠ ['r', 'e', 'e', 'l'])
    (hX : HeadNotTok X) : stripLit "reel/".toList (tok ++ X) = none := by
  rcases hs : stripLit "reel/".toList (tok ++ X) with _ | r
  · rfl
  · exfalso
    have heq := stripLit_eq_some hs
    rcases tok with _ | ⟨a, _ | ⟨b, _ | ⟨c, _ | ⟨d, _ | ⟨e, rest⟩⟩⟩⟩⟩ <;>
      rcases hX with rfl | ⟨h0, t, rfl, hh⟩ <;>
      simp only [show "reel/".toList = ['r', 'e', 'e', 'l', '/'] from rfl,
        List.nil_append, List.cons_append, List.append_nil, List.cons.injEq] at heq
    all_goals try (obtain ⟨rfl, rfl, rfl, rfl, -⟩ := heq; exact hre rfl)
    all_goals try
      (obtain ⟨rfl, rfl, rfl, rfl, rfl, rfl⟩ := heq
       exact absurd (htokc '/' (List.mem_cons_of_mem _ (List.mem_cons_of_mem _
         (List.mem_cons_of_mem _ (List.mem_cons_of_mem _ (List.mem_cons_self _ _))))))
         (by decide))
    all_goals try (obtain ⟨rfl, rfl⟩ := heq; exact absurd hh (by decide))
    all_goals try (obtain ⟨rfl, rfl, rfl⟩ := heq; exact absurd hh (by decide))
    all_goals try (obtain ⟨rfl, rfl, rfl, rfl⟩ := heq; exact absurd hh (by decide))
    all_goals try (obtain ⟨rfl, rfl, rfl, rfl, rfl⟩ := heq; exact absurd hh (by decide))
    all_goals simp at heq

/-- If the optional path-segment run of the pattern mistakenly consumed the
literal `reel`, the rest of a rendered link never lets the remainder of the
pattern succeed. -/
theorem reelStage_no_steal {β : Type} {k : List Char → Option β} {tok : List Char}
    (htne : tok ≠ []) (htokc : ∀ c ∈ tok, isTokenChar c = true)
    (tr : TrailKind) {follower : List Char} (hf : FollowerOk tr follower) :
    reelStage k (tok ++ (tr.render ++ follower)) = none := by
  by_cases hre : tok = ['r', 'e', 'e', 'l']
  · subst hre
    cases tr with
    | tnone =>
      cases follower with
      | nil => rfl
      | cons h0 t =>
        obtain ⟨hnt, hns⟩ := hf
        unfold reelStage
        rw [show stripLit "reel/".toList
            (['r', 'e', 'e', 'l'] ++ (TrailKind.tnone.render ++ (h0 :: t)))
            = (if h0 = '/' then some t else none) from rfl]
        rw [if_neg hns]
    | tslash =>
      cases follower with
      | nil => rfl
      | cons h0 t =>
        obtain ⟨hnt, hq⟩ := hf
        unfold reelStage
        rw [show stripLit "reel/".toList
            (['r', 'e', 'e', 'l'] ++ (TrailKind.tslash.render ++ (h0 :: t)))
            = some (h0 :: t) from rfl]
        show tokenStage k (h0 :: t) = none
        unfold tokenStage
        simp [List.takeWhile_cons, hnt, plusSplits]
    | tquery q =>
      cases follower with
      | nil => rfl
      | cons h0 t =>
        have hsp : h0 = ' ' := hf
        subst hsp
        rfl
  · unfold reelStage
    rw [stripLit_reel_none htokc hre (headNotTok_render_follow tr hf)]

theorem segStage_render {β : Type} {k : List Char → Option β} {b : β}
    (seg : Option (List Char)) (hseg : segWf seg)
    {tok : List Char} (htne : tok ≠ []) (htokc : ∀ c ∈ tok, isTokenChar c = true)
    (tr : TrailKind) (htr : tr.wf) {follower : List Char} (hf : FollowerOk tr follower)
    (hk : k follower = some b) :
    segStage k (segRender seg ++
      ("reel/".toList ++ (tok ++ (tr.render ++ follower)))) = some (tok, b) := by
  cases seg with
  | some s =>
    obtain ⟨hsne, hsc⟩ := hseg
    have hassoc : segRender (some s) ++ ("reel/".toList ++ (tok ++ (tr.render ++ follower)))
        = s ++ ('/' :: ("reel/".toList ++ (tok ++ (tr.render ++ follower)))) := by
      simp [segRender]
    rw [hassoc]
    unfold segStage
    have hb : headNot isSegChar ('/' :: ("reel/".toList ++ (tok ++ (tr.render ++ follower)))) :=
      show isSegChar '/' = false by decide
    have htw := takeWhile_all_append hsc hb
    rw [htw.1, htw.2]
    refine oalt_some _ (plusSplits_first (by simpa using hsne) ?_)
    show reelStage k ("reel/".toList ++ (tok ++ (tr.render ++ follower))) = some (tok, b)
    exact reelStage_render htne htokc tr htr hf hk
  | none =>
    have hsteal : reelStage k (tok ++ (tr.render ++ follower)) = none :=
      reelStage_no_steal htne htokc tr hf
    show oalt (oalt (reelStage k (tok ++ (tr.render ++ follower))) none)
        (reelStage k ([] ++ ("reel/".toList ++ (tok ++ (tr.render ++ follower))))) = some (tok, b)
    rw [hsteal]
    exact reelStage_render htne htokc tr htr hf hk

theorem segStage_inv {β : Type} {k : List Char → Option β} {cs tok : List Char} {b : β}
    (h : segStage k cs = some (tok, b)) :
    (∃ s r, cs = s ++ ('/' :: r) ∧ s ≠ [] ∧ (∀ c ∈ s, isSegChar c = true) ∧
       reelStage k r = some (tok, b)) ∨ reelStage k cs = some (tok, b) := by
  unfold segStage at h
  rcases oalt_eq_some.mp h with h1 | ⟨_, h2⟩
  · obtain ⟨s, rest2, heq, hne, hmem, hf⟩ := plusSplits_inv h1
    rw [List.reverse_reverse, List.takeWhile_append_dropWhile] at heq
    split at hf
    next r =>
      exact Or.inl ⟨s, r, heq, hne,
        fun c hc => mem_takeWhile_p (List.mem_reverse.mp (hmem c hc)), hf⟩
    next => exact absurd hf (by simp)
  · exact Or.inr h2

theorem schemeStage_render {β : Type} {k : List Char → Option β} {b : β}
    (l : Link) (hl : l.wf) {follower : List Char} (hf : FollowerOk l.trail follower)
    (hk : k follower = some b) :
    schemeStage k (l.render ++ follower) = some (l.tok, b) := by
  obtain ⟨htne, htokc, hseg, htr⟩ := hl
  have hsegS := segStage_render (k := k) l.seg hseg htne htokc l.trail htr hf hk
  have hdom : domainStage k ("instagram.com/".toList ++
      (segRender l.seg ++
        ("reel/".toList ++ (l.tok ++ (l.trail.render ++ follower))))) = some (l.tok, b) := by
    unfold domainStage
    simp only [stripLit_append]
    exact hsegS
  have hwww : wwwStage k ((if l.www then "www.".toList else []) ++
      ("instagram.com/".toList ++
        (segRender l.seg ++
          ("reel/".toList ++ (l.tok ++ (l.trail.render ++ follower)))))) = some (l.tok, b) := by
    cases hw : l.www
    · exact hdom
    · unfold wwwStage
      simp only [stripLit_append]
      exact oalt_some _ hdom
  simp only [Link.render, List.append_assoc]
  unfold schemeStage
  simp only [stripLit_append]
  cases hs : l.secure
  · exact hwww
  · exact oalt_some _ hwww

theorem trailOf_kind {t : List Char} (h : TrailOf t) :
    ∃ tr : TrailKind, tr.wf ∧ tr.render = t := by
  rcases h with rfl | rfl | ⟨q, rfl, hq⟩
  · exact ⟨.tnone, trivial, rfl⟩
  · exact ⟨.tslash, trivial, rfl⟩
  · exact ⟨.tquery q, hq, rfl⟩

theorem domainStage_inv {β : Type} {k : List Char → Option β} {cs tok : List Char} {b : β}
    (h : domainStage k cs = some (tok, b)) :
    ∃ r, cs = "instagram.com/".toList ++ r ∧ segStage k r = some (tok, b) := by
  unfold domainStage at h
  split at h
  next r heq => exact ⟨r, stripLit_eq_some heq, h⟩
  next => simp at h

theorem segStage_sound {β : Type} {k : List Char → Option β} {cs tok : List Char} {b : β}
    (h : segStage k cs = some (tok, b)) :
    ∃ (seg : Option (List Char)) (t follower : List Char),
      segWf seg ∧ tok ≠ [] ∧ (∀ c ∈ tok, isTokenChar c = true) ∧ TrailOf t ∧
      cs = segRender seg ++ ("reel/".toList ++ (tok ++ (t ++ follower))) ∧
      k follower = some b := by
  have assemble : ∀ {r : List Char}, reelStage k r = some (tok, b) →
      ∃ (t follower : List Char), tok ≠ [] ∧ (∀ c ∈ tok, isTokenChar c = true) ∧ TrailOf t ∧
        r = "reel/".toList ++ (tok ++ (t ++ follower)) ∧ k follower = some b := by
    intro r hre
    obtain ⟨r2, rfl, htokS⟩ := reelStage_inv hre
    obtain ⟨rest2, rfl, htne, htokc, htr⟩ := tokenStage_inv htokS
    obtain ⟨t, follower, rfl, htof, hk⟩ := trailStage_inv htr
    exact ⟨t, follower, htne, htokc, htof, by simp, hk⟩
  rcases segStage_inv h with ⟨s, r, rfl, hne, hsc, hre⟩ | hre
  · obtain ⟨t, follower, htne, htokc, htof, rfl, hk⟩ := assemble hre
    exact ⟨some s, t, follower, ⟨hne, hsc⟩, htne, htokc, htof, by simp [segRender], hk⟩
  · obtain ⟨t, follower, htne, htokc, htof, heq, hk⟩ := assemble hre
    exact ⟨none, t, follower, trivial, htne, htokc, htof, by simp [segRender, heq], hk⟩

theorem wwwStage_sound {β : Type} {k : List Char → Option β} {cs tok : List Char} {b : β}
    (h : wwwStage k cs = some (tok, b)) :
    ∃ (www : Bool) (seg : Option (List Char)) (t follower : List Char),
      segWf seg ∧ tok ≠ [] ∧ (∀ c ∈ tok, isTokenChar c = true) ∧ TrailOf t ∧
      cs = (if www then "www.".toList else []) ++ ("instagram.com/".toList ++
        (segRender seg ++ ("reel/".toList ++ (tok ++ (t ++ follower))))) ∧
      k follower = some b := by
  unfold wwwStage at h
  rcases oalt_eq_some.mp h with h1 | ⟨_, h2⟩
  · split at h1
    next r heq =>
      obtain ⟨seg, t, follower, hsw, htne, htokc, htof, heq2, hk⟩ :=
        segStage_sound (domainStage_inv h1).choose_spec.2
      have hr := (domainStage_inv h1).choose_spec.1
      refine ⟨true, seg, t, follower, hsw, htne, htokc, htof, ?_, hk⟩
      rw [stripLit_eq_some heq, hr, heq2]
      simp
    next => simp at h1
  · obtain ⟨r, hr, hsegS⟩ := domainStage_inv h2
    obtain ⟨seg, t, follower, hsw, htne, htokc, htof, heq2, hk⟩ := segStage_sound hsegS
    refine ⟨false, seg, t, follower, hsw, htne, htokc, htof, ?_, hk⟩
    rw [hr, heq2]
    simp

theorem schemeStage_sound {β : Type} {k : List Char → Option β} {cs tok : List Char} {b : β}
    (h : schemeStage k cs = some (tok, b)) :
    ∃ (l : Link) (follower : List Char), l.wf ∧ l.tok = tok ∧
      cs = l.render ++ follower ∧ k follower = some b := by
  unfold schemeStage at h
  split at h
  next => simp at h
  next cs1 heq =>
    have hcs : cs = "http".toList ++ cs1 := stripLit_eq_some heq
    rcases oalt_eq_some.mp h with h1 | ⟨_, h2⟩
    · split at h1
      next r =>
        split at h1
        next r2 heq2 =>
          obtain ⟨www, seg, t, follower, hsw, htne, htokc, htof, heqw, hk⟩ :=
            wwwStage_sound h1
          obtain ⟨tr, htrw, rfl⟩ := trailOf_kind htof
          refine ⟨⟨true, www, seg, tok, tr⟩, follower, ⟨htne, htokc, hsw, htrw⟩, rfl, ?_, hk⟩
          rw [hcs, stripLit_eq_some heq2, heqw]
          simp [Link.render]
        next => simp at h1
      next => simp at h1
    · split at h2
      next r2 heq2 =>
        obtain ⟨www, seg, t, follower, hsw, htne, htokc, htof, heqw, hk⟩ :=
          wwwStage_sound h2
        obtain ⟨tr, htrw, rfl⟩ := trailOf_kind htof
        refine ⟨⟨false, www, seg, tok, tr⟩, follower, ⟨htne, htokc, hsw, htrw⟩, rfl, ?_, hk⟩
        rw [hcs, stripLit_eq_some heq2, heqw]
        simp [Link.render]
      next => simp at h2

theorem reelMatchAt_render (l : Link) (hl : l.wf) {follower : List Char}
    (hf : FollowerOk l.trail follower) :
    reelMatchAt (l.render ++ follower) = some (l.tok, follower) :=
  schemeStage_render l hl hf rfl

theorem reelFullmatch_render (l : Link) (hl : l.wf) : reelFullmatch l.render = true := by
  unfold reelFullmatch
  have h := schemeStage_render (k := endCheck) (b := ()) l hl
    (followerOk_nil l.trail) rfl
  rw [List.append_nil] at h
  simp [h]

theorem reelFullmatch_sound {cs : List Char} (h : reelFullmatch cs = true) :
    ∃ l : Link, l.wf ∧ cs = l.render := by
  unfold reelFullmatch at h
  rcases hsome : schemeStage endCheck cs with _ | p
  · rw [hsome] at h
    simp at h
  · obtain ⟨tok, b⟩ := p
    obtain ⟨l, follower, hwf, htk, heq, hk⟩ := schemeStage_sound hsome
    have hfol : follower = [] := by
      cases follower with
      | nil => rfl
      | cons c t => simp [endCheck] at hk
    subst hfol
    rw [List.append_nil] at heq
    exact ⟨l, hwf, heq⟩

theorem reelMatchAt_sound {cs tok r : List Char} (h : reelMatchAt cs = some (tok, r)) :
    ∃ l : Link, l.wf ∧ l.tok = tok ∧ cs = l.render ++ r := by
  obtain ⟨l, follower, hwf, htk, heq, hk⟩ := schemeStage_sound h
  have : follower = r := Option.some_inj.mp hk
  subst this
  exact ⟨l, hwf, htk, heq⟩

theorem link_render_length_pos (l : Link) : 0 < l.render.length := by
  simp [Link.render]

theorem reelMatchAt_rest_lt {cs tok r : List Char} (h : reelMatchAt cs = some (tok, r)) :
    r.length < cs.length := by
  obtain ⟨l, hwf, htk, rfl⟩ := reelMatchAt_sound h
  have := link_render_length_pos l
  simp only [List.length_append]
  omega

theorem reelMatchAt_nil : reelMatchAt [] = none := rfl

theorem scanFuel_congr :
    ∀ (f1 : Nat) {cs : List Char} (f2 : Nat), cs.length ≤ f1 → cs.length ≤ f2 →
      scanFuel f1 cs = scanFuel f2 cs := by
  intro f1
  induction f1 with
  | zero =>
    intro cs f2 h1 _
    have : cs = [] := List.length_eq_zero.mp (Nat.le_zero.mp h1)
    subst this
    cases f2 <;> rfl
  | succ f1' ih =>
    intro cs f2 h1 h2
    cases cs with
    | nil => cases f2 <;> rfl
    | cons c cs' =>
      obtain ⟨f2', rfl⟩ : ∃ f2', f2 = f2' + 1 := by
        cases f2 with
        | zero => simp at h2
        | succ n => exact ⟨n, rfl⟩
      simp only [List.length_cons] at h1 h2
      rcases hm : reelMatchAt (c :: cs') with _ | ⟨tok, r⟩
      · simp only [scanFuel, hm]
        exact ih f2' (by omega) (by omega)
      · have hlt := reelMatchAt_rest_lt hm
        simp only [List.length_cons] at hlt
        simp only [scanFuel, hm]
        rw [ih f2' (by omega) (by omega)]

theorem extractIds_nil : extractIds [] = [] := rfl

theorem extractIds_match {cs tok r : List Char} (h : reelMatchAt cs = some (tok, r)) :
    extractIds cs = tok :: extractIds r := by
  cases cs with
  | nil => rw [reelMatchAt_nil] at h; exact absurd h (by simp)
  | cons c cs' =>
    have hlt := reelMatchAt_rest_lt h
    simp only [List.length_cons] at hlt
    unfold extractIds
    simp only [List.length_cons, scanFuel, h]
    rw [scanFuel_congr cs'.length r.length (by omega) le_rfl]

theorem extractIds_cons_none {c : Char} {cs : List Char}
    (h : reelMatchAt (c :: cs) = none) : extractIds (c :: cs) = extractIds cs := by
  unfold extractIds
  simp only [List.length_cons, scanFuel, h]

theorem stripLit_http_none {c : Char} {t rest : List Char}
    (h1 : startsHttp (c :: t) = false) (hr : SchemeHead rest) :
    stripLit "http".toList (c :: (t ++ rest)) = none := by
  rcases hs : stripLit "http".toList (c :: (t ++ rest)) with _ | r
  · rfl
  · exfalso
    have heq := stripLit_eq_some hs
    rcases t with _ | ⟨d, _ | ⟨e, _ | ⟨f, t2⟩⟩⟩ <;>
      rcases hr with rfl | ⟨r2, rfl⟩ <;>
      simp only [show "http".toList = ['h', 't', 't', 'p'] from rfl,
        List.nil_append, List.cons_append, List.append_nil, List.cons.injEq] at heq
    all_goals try
      (obtain ⟨rfl, rfl, rfl, rfl, rfl⟩ := heq
       exact Bool.noConfusion h1)
    all_goals simp at heq

theorem reelMatchAt_junk_http {c : Char} {t rest : List Char}
    (h1 : startsHttp (c :: t) = false) (hr : SchemeHead rest) :
    reelMatchAt (c :: (t ++ rest)) = none := by
  unfold reelMatchAt schemeStage
  rw [stripLit_http_none h1 hr]

theorem extractIds_junk_http :
    ∀ {j : List Char}, hasHttp j = false → ∀ {rest : List Char}, SchemeHead rest →
      extractIds (j ++ rest) = extractIds rest := by
  intro j
  induction j with
  | nil => intro _ rest _; rfl
  | cons c t ih =>
    intro hj rest hr
    have hj2 : startsHttp (c :: t) = false ∧ hasHttp t = false := by
      simpa [hasHttp] using hj
    rw [List.cons_append, extractIds_cons_none (reelMatchAt_junk_http hj2.1 hr)]
    exact ih hj2.2 hr

theorem mkText_schemeHead (pairs : List (Link × List Char)) : SchemeHead (mkText pairs) := by
  cases pairs with
  | nil => exact Or.inl rfl
  | cons p rest =>
    obtain ⟨l, j⟩ := p
    exact Or.inr ⟨_, rfl⟩

/-- C7 counterexample: the unrestricted universal statement fails under
adjacency.  The concatenation of two well-formed reel links (N = 2 links,
M = 0 non-matching substrings) extracts a single identifier `ABhttps`, and
one well-formed link followed by the non-matching substring `C-1`
extracts `ABC-1` instead of the link's token `AB`: adjacent text merges
into the token. -/
theorem claim_C7_counterexample :
    Link.wf ⟨true, false, none, ['A', 'B'], .tnone⟩
    ∧ Link.wf ⟨true, false, none, ['C', 'D'], .tnone⟩
    ∧ extractIds (Link.render ⟨true, false, none, ['A', 'B'], .tnone⟩ ++
        Link.render ⟨true, false, none, ['C', 'D'], .tnone⟩) =
      [['A', 'B', 'h', 't', 't', 'p', 's']]
    ∧ extractIds (Link.render ⟨true, false, none, ['A', 'B'], .tnone⟩ ++
        ['C', '-', '1']) = [['A', 'B', 'C', '-', '1']] :=
  ⟨⟨by decide, by decide, trivial, trivial⟩, ⟨by decide, by decide, trivial, trivial⟩,
   by decide, by decide⟩

/-- C7 amended: extraction is a total pure function (no error condition;
zero matches is the empty list), and for every text composed of N
well-formed reel links separated by genuinely non-matching filler — no
occurrence of the scheme literal `http` inside a filler, and each link's
follower beginning with a character its trailing part cannot absorb
(after a bare token: not a token character and not `/`; after a
`/`-terminated link: not a token character and not `?`; after a `/?query`
trail: a space) — extraction returns exactly the N link tokens in
left-to-right order of appearance, independent of the fillers.  Without
such separation, adjacent text merges into a link's token, so the
unrestricted universal statement is false. -/
theorem claim_C7_amended_extraction :
    ∀ (pairs : List (Link × List Char)) (junk0 : List Char),
      hasHttp junk0 = false → SepOk pairs →
      extractIds (junk0 ++ mkText pairs) = pairs.map (fun p => p.1.tok) := by
  intro pairs
  induction pairs with
  | nil =>
    intro junk0 hj0 _
    rw [show mkText [] = [] from rfl, extractIds_junk_http hj0 (Or.inl rfl)]
    rfl
  | cons p rest ih =>
    obtain ⟨l, j⟩ := p
    intro junk0 hj0 hps
    obtain ⟨hwf, hjh, hfol, hrest⟩ := hps
    simp only [mkText]
    have h1 : extractIds (junk0 ++ (l.render ++ j ++ mkText rest)) =
        extractIds (l.render ++ j ++ mkText rest) :=
      extractIds_junk_http hj0 (Or.inr ⟨_, rfl⟩)
    rw [h1, List.append_assoc]
    rw [extractIds_match (reelMatchAt_render l hwf hfol)]
    rw [extractIds_junk_http hjh (mkText_schemeHead rest)]
    have := ih [] rfl hrest
    rw [List.nil_append] at this
    rw [this]
    rfl

theorem claim_C7_amended_extraction_witness :
    extractIds ("check this out ".toList ++ mkText
      [(⟨true, false, none, ['A', 'B'], .tnone⟩, [',', ' ']),
       (⟨true, true, some ['u'], ['C', '3'], .tslash⟩, " done".toList)]) =
      [['A', 'B'], ['C', '3']] :=
  (claim_C7_amended_extraction
    [(⟨true, false, none, ['A', 'B'], .tnone⟩, [',', ' ']),
     (⟨true, true, some ['u'], ['C', '3'], .tslash⟩, " done".toList)]
    "check this out ".toList (by decide)
    ⟨⟨by decide, by decide, trivial, trivial⟩, by decide, ⟨by decide, by decide⟩,
     ⟨by decide, by decide, ⟨by decide, by decide⟩, trivial⟩, by decide,
      ⟨by decide, by decide⟩, trivial⟩).trans (by decide)

/-- C5 counterexample: the code applies `fullmatch` to the raw message text
without trimming, so a message whose trimmed text is exactly a reel URL but
which carries a trailing space has `is_link_only` false, refuting the
claimed equivalence with the trimmed text. -/
theorem claim_C5_counterexample :
    isLinkOnly "https://instagram.com/reel/ABC " = false
    ∧ isLinkOnly (trimSpaces "https://instagram.com/reel/ABC ") = true := by
  constructor
  · decide
  · decide

/-- C5 amended: `is_link_only` is true iff the raw (untrimmed) message text
matches the reel-URL grammar in full, i.e. iff it is exactly one rendered
well-formed reel URL; any leading or trailing extra character, including
the whitespace that trimming would remove, makes it false. -/
theorem claim_C5_amended_link_only (s : String) :
    isLinkOnly s = true ↔ ∃ l : Link, l.wf ∧ l.render = s.toList := by
  constructor
  · intro h
    obtain ⟨l, hwf, heq⟩ := reelFullmatch_sound h
    exact ⟨l, hwf, heq.symm⟩
  · rintro ⟨l, hwf, heq⟩
    unfold isLinkOnly
    rw [← heq]
    exact reelFullmatch_render l hwf

/-- C9: whenever `is_link_only` holds, the message is exactly one rendered
well-formed reel URL and extraction yields exactly one identifier: the
token of that URL. -/
theorem claim_C9_link_only_single (s : String) (h : isLinkOnly s = true) :
    ∃ l : Link, l.wf ∧ l.render = s.toList ∧ extract s = [l.tok.asString] := by
  obtain ⟨l, hwf, heq⟩ := reelFullmatch_sound h
  refine ⟨l, hwf, heq.symm, ?_⟩
  unfold extract
  rw [heq]
  have hm : reelMatchAt l.render = some (l.tok, []) := by
    have := reelMatchAt_render l hwf (followerOk_nil l.trail)
    rwa [List.append_nil] at this
  rw [extractIds_match hm, extractIds_nil]
  rfl

theorem claim_C9_link_only_single_witness :
    isLinkOnly "https://www.instagram.com/reel/Zz_-9/" = true
    ∧ ∃ l : Link, l.wf ∧ l.render = "https://www.instagram.com/reel/Zz_-9/".toList
        ∧ extract "https://www.instagram.com/reel/Zz_-9/" = [l.tok.asString] :=
  ⟨by decide, claim_C9_link_only_single "https://www.instagram.com/reel/Zz_-9/" (by decide)⟩

/-- C1: if every one of the MAX_RETRIES (= 3) attempts fails, `download_reel`
raises a single `ErrorDownload` carrying the last attempt's captured error
message and an attempt count of MAX_RETRIES + 1 (= 4); the intermediate
attempt errors do not appear in the raised error. -/
theorem claim_C1_terminal_failure (provider : Nat → AttemptResult) (sc m1 m2 m3 : String)
    (h1 : provider 1 = .err m1) (h2 : provider 2 = .err m2) (h3 : provider 3 = .err m3) :
    download_reel provider sc =
      ([.attempt 1, .sleep RETRY_DELAY, .attempt 2, .sleep RETRY_DELAY, .attempt 3],
       .error ⟨some (captured m3 sc), MAX_RETRIES + 1⟩) := by
  unfold download_reel
  rw [downloadLoop]
  simp only [MAX_RETRIES, RETRY_DELAY, h1]
  norm_num
  rw [downloadLoop]
  simp only [MAX_RETRIES, RETRY_DELAY, h2]
  norm_num
  rw [downloadLoop]
  simp only [MAX_RETRIES, RETRY_DELAY, h3]
  norm_num
  rw [downloadLoop]
  simp [MAX_RETRIES]

theorem claim_C1_terminal_failure_witness :
    download_reel (fun _ => .err "boom") "SC" =
      ([.attempt 1, .sleep RETRY_DELAY, .attempt 2, .sleep RETRY_DELAY, .attempt 3],
       .error ⟨some (captured "boom" "SC"), MAX_RETRIES + 1⟩) :=
  claim_C1_terminal_failure (fun _ => .err "boom") "SC" "boom" "boom" "boom" rfl rfl rfl

/-- C6: if the provider fails on attempts 1 and 2 and succeeds on attempt 3,
`download_reel` returns the success having consumed exactly 3 attempts, with
exactly one RETRY_DELAY-length suspension between the 2nd and 3rd attempt and
nothing after the successful attempt. -/
theorem claim_C6_third_attempt_success (provider : Nat → AttemptResult) (sc m1 m2 p : String)
    (h1 : provider 1 = .err m1) (h2 : provider 2 = .err m2) (h3 : provider 3 = .ok p) :
    download_reel provider sc =
      ([.attempt 1, .sleep RETRY_DELAY, .attempt 2, .sleep RETRY_DELAY, .attempt 3],
       .ok p) := by
  unfold download_reel
  rw [downloadLoop]
  simp only [MAX_RETRIES, RETRY_DELAY, h1]
  norm_num
  rw [downloadLoop]
  simp only [MAX_RETRIES, RETRY_DELAY, h2]
  norm_num
  rw [downloadLoop]
  simp [MAX_RETRIES, RETRY_DELAY, h3]

theorem claim_C6_third_attempt_success_witness :
    download_reel (fun n => if n ≤ 2 then .err "e" else .ok "p.mp4") "SC" =
      ([.attempt 1, .sleep RETRY_DELAY, .attempt 2, .sleep RETRY_DELAY, .attempt 3],
       .ok "p.mp4") :=
  claim_C6_third_attempt_success (fun n => if n ≤ 2 then .err "e" else .ok "p.mp4")
    "SC" "e" "e" "p.mp4" rfl rfl rfl

/-- C2: the permission decision is exactly this case analysis: private chat
authorized with zero membership lookups; supergroup with membership status
"administrator" authorized regardless of capability flags; an administrator
membership record authorized iff all three required capabilities are present
and true; a plain member authorized; any other status, or a BadRequest during
the lookup, denied. -/
theorem claim_C2_authorize_cases :
    (∀ lk, authorizeDecision (some .privateChat) lk = true ∧
           lookupCount (some .privateChat) lk = 0)
    ∧ (∀ a b c, authorizeDecision (some .supergroup) (.ok (.administrator a b c)) = true)
    ∧ (∀ ct, authorizeDecision (some ct) (.ok .member) = true)
    ∧ (∀ a b c, authorizeDecision (some .group) (.ok (.administrator a b c)) =
        (a.getD false && b.getD false && c.getD false))
    ∧ (∀ a b c, authorizeDecision (some .channel) (.ok (.administrator a b c)) =
        (a.getD false && b.getD false && c.getD false))
    ∧ (∀ s, authorizeDecision (some .group) (.ok (.other s)) = false)
    ∧ (∀ s, authorizeDecision (some .channel) (.ok (.other s)) = false)
    ∧ (∀ s, authorizeDecision (some .supergroup) (.ok (.other s)) = (s == "administrator"))
    ∧ (∀ ct m, authorizeDecision (some ct) (.badRequest m) = (ct == .privateChat)) := by
  refine ⟨fun lk => ⟨rfl, rfl⟩, fun a b c => rfl, fun ct => ?_, fun a b c => ?_,
          fun a b c => ?_, fun s => rfl, fun s => rfl, fun s => ?_, fun ct m => ?_⟩
  · cases ct <;> rfl
  · by_cases hr : (a.getD false && b.getD false && c.getD false) = true <;>
      simp [authorizeDecision, check_bot_permissions, BotMember.statusStr, hr]
  · by_cases hr : (a.getD false && b.getD false && c.getD false) = true <;>
      simp [authorizeDecision, check_bot_permissions, BotMember.statusStr, hr]
  · by_cases hs : s = "administrator" <;>
      simp [authorizeDecision, check_bot_permissions, BotMember.statusStr, hs]
  · cases ct <;> rfl

theorem extract_empty : extract "" = [] := rfl

theorem runIters_all_success (lo : Bool) (fetch : String → Except String String)
    (pathF : String → String) :
    ∀ rids : List String, (∀ rid ∈ rids, fetch rid = .ok (pathF rid)) → ∀ i,
      runIters true lo fetch allOk rids i =
        ((rids.map (deliveredBlock lo pathF)).flatten, true) := by
  intro rids
  induction rids with
  | nil => intro _ i; simp [runIters]
  | cons rid rest ih =>
    intro h i
    have hr : fetch rid = .ok (pathF rid) := h rid (List.mem_cons_self _ _)
    have ihx := ih (fun r hm => h r (List.mem_cons_of_mem _ hm)) (i + 1)
    cases lo <;>
      simp [runIters, iterBody, allOk, hr, deliveredBlock, ihx]

/-- C3: every successfully fetched identifier is delivered with caption
`https://instagram.com/reel/<identifier>` (no `www.`): as a standalone post
followed by deletion of the original when the message was exactly that link,
and as a threaded reply with the original left intact otherwise. -/
theorem claim_C3_delivery_modes (text : String) (fetch : String → Except String String)
    (pathF : String → String) (h : ∀ rid ∈ extract text, fetch rid = .ok (pathF rid)) :
    handle (some ⟨text⟩) none false true true fetch allOk =
      (((extract text).map (deliveredBlock (isLinkOnly text) pathF)).flatten, true) := by
  by_cases ht : text = ""
  · subst ht; rfl
  · simp only [handle, oalt, ht, if_false, Bool.not_true, Option.isSome_some]
    simpa [ht] using runIters_all_success (isLinkOnly text) fetch pathF (extract text) h 0

theorem claim_C3_delivery_modes_witness :
    handle (some ⟨"check this out https://www.instagram.com/reel/XYZ/"⟩) none false true true
        (fun rid => .ok ("f" ++ rid)) allOk =
      ([.chatAction, .chatAction, .replyVideo "fXYZ" "https://instagram.com/reel/XYZ"], true) :=
  (claim_C3_delivery_modes "check this out https://www.instagram.com/reel/XYZ/"
    (fun rid => .ok ("f" ++ rid)) (fun rid => "f" ++ rid) (fun _ _ => rfl)).trans (by decide)

/-- C4 counterexample: for a link-only message whose fetch and send succeed
but whose deletion raises, the handler attaches the thumbs-down reaction even
though the media for that identifier WAS sent — refuting "a failure …
sends no media for that identifier". -/
theorem claim_C4_counterexample :
    handle (some ⟨"https://instagram.com/reel/ABC"⟩) none false true true
        (fun _ => .ok "v.mp4") (fun _ => ⟨true, true, true, false, true⟩) =
      ([.chatAction, .chatAction, .sendVideo "v.mp4" "https://instagram.com/reel/ABC",
        .setReaction], true)
    ∧ Effect.setReaction ∈
        [Effect.chatAction, .chatAction, .sendVideo "v.mp4" "https://instagram.com/reel/ABC",
         .setReaction]
    ∧ Effect.sendVideo "v.mp4" "https://instagram.com/reel/ABC" ∈
        [Effect.chatAction, .chatAction, .sendVideo "v.mp4" "https://instagram.com/reel/ABC",
         .setReaction] := by
  refine ⟨by decide, by decide, by decide⟩

theorem runIters_react_ok (lo : Bool) (fetch : String → Except String String)
    (oracle : Nat → IterOracle) (hreact : ∀ j, (oracle j).react = true) :
    ∀ (rids : List String) (i : Nat),
      runIters true lo fetch oracle rids i =
        (((List.enumFrom i rids).map
            (fun p => perIdEvents true lo fetch (oracle p.1) p.2)).flatten, true) := by
  intro rids
  induction rids with
  | nil => intro i; simp [runIters]
  | cons rid rest ih =>
    intro i
    rcases hstep : iterBody true lo fetch (oracle i) rid with ⟨evs, raised⟩
    cases raised <;>
      simp [runIters, hstep, hreact i, List.enumFrom_cons, perIdEvents, ih (i + 1)]

/-- C4 amended: identifiers are processed independently and sequentially;
when handling one raises (DownloadError or any other exception) and the
reaction call itself succeeds, a thumbs-down reaction is attached and
processing continues with the remaining identifiers; a fetch failure sends
no media and does not delete the original; but a failure raised after the
send (e.g. during deletion) still attaches the reaction even though the
media was already sent. -/
theorem claim_C4_amended_independence (m : Msg) (fetch : String → Except String String)
    (oracle : Nat → IterOracle) (hreact : ∀ j, (oracle j).react = true) :
    handle (some m) none false true true fetch oracle =
      (((List.enumFrom 0 (extract m.text)).map
          (fun p => perIdEvents true (isLinkOnly m.text) fetch (oracle p.1) p.2)).flatten, true)
    ∧ (∀ (o : IterOracle) (rid msg : String), fetch rid = .error msg →
        Effect.deleteOriginal ∉ perIdEvents true (isLinkOnly m.text) fetch o rid
        ∧ (∀ p c, Effect.sendVideo p c ∉ perIdEvents true (isLinkOnly m.text) fetch o rid)
        ∧ (∀ p c, Effect.replyVideo p c ∉ perIdEvents true (isLinkOnly m.text) fetch o rid)
        ∧ Effect.setReaction ∈ perIdEvents true (isLinkOnly m.text) fetch o rid) := by
  constructor
  · by_cases ht : m.text = ""
    · obtain ⟨t⟩ := m
      simp only at ht
      subst ht
      rfl
    · simp only [handle, oalt, ht, if_false, Bool.not_true, Option.isSome_some]
      simpa [ht] using runIters_react_ok (isLinkOnly m.text) fetch oracle hreact (extract m.text) 0
  · intro o rid msg hf
    by_cases h1 : o.act1 <;>
      simp [perIdEvents, iterBody, h1, hf]

theorem claim_C4_amended_independence_witness :
    handle (some ⟨"x https://instagram.com/reel/A https://instagram.com/reel/B"⟩) none
        false true true (fun r => if r = "A" then .error "dl" else .ok "v.mp4") allOk =
      ([.chatAction, .setReaction, .chatAction, .chatAction,
        .replyVideo "v.mp4" "https://instagram.com/reel/B"], true) :=
  ((claim_C4_amended_independence ⟨"x https://instagram.com/reel/A https://instagram.com/reel/B"⟩
    (fun r => if r = "A" then .error "dl" else .ok "v.mp4") allOk (fun _ => rfl)).1).trans
    (by decide)

/-- C8: the code does NOT process a channel post like a normal message: the
chat-action call dereferences `update.message`, which is `None` for channel
posts, so every identifier of a channel post raises and is answered with a
thumbs-down reaction and no media, while the same text as a normal message is
delivered; the no-update and empty-text no-ops do hold. -/
theorem claim_C8_channel_post_divergence :
    handle (some ⟨"https://instagram.com/reel/ABC"⟩) none false true true
        (fun _ => .ok "v.mp4") allOk =
      ([.chatAction, .chatAction, .sendVideo "v.mp4" "https://instagram.com/reel/ABC",
        .deleteOriginal], true)
    ∧ handle none (some ⟨"https://instagram.com/reel/ABC"⟩) false true true
        (fun _ => .ok "v.mp4") allOk = ([.setReaction], true)
    ∧ handle none none false true true (fun _ => .ok "v.mp4") allOk = ([], true)
    ∧ handle (some ⟨""⟩) none false true true (fun _ => .ok "v.mp4") allOk = ([], true) := by
  refine ⟨by decide, by decide, rfl, rfl⟩

theorem iterBody_cases (mp lo : Bool) (fetch : String → Except String String)
    (o : IterOracle) (rid : String) :
    iterBody mp lo fetch o rid = ([], true) ∨
    iterBody mp lo fetch o rid = ([.chatAction], true) ∨
    iterBody mp lo fetch o rid = ([.chatAction, .chatAction], true) ∨
    (∃ p, iterBody mp lo fetch o rid =
      ([.chatAction, .chatAction, .sendVideo p (sourceLink rid)], true)) ∨
    (∃ p, iterBody mp lo fetch o rid =
      ([.chatAction, .chatAction, .sendVideo p (sourceLink rid), .deleteOriginal], false)) ∨
    (∃ p, iterBody mp lo fetch o rid =
      ([.chatAction, .chatAction, .replyVideo p (sourceLink rid)], false)) := by
  rcases hf : fetch rid with msg | p <;>
    cases mp <;> cases h1 : o.act1 <;> cases h2 : o.act2 <;> cases lo <;>
    cases hs : o.send <;> cases hd : o.del <;>
    simp [iterBody, hf, h1, h2, hs, hd]

theorem delAfterSend_runIters (mp lo : Bool) (fetch : String → Except String String)
    (oracle : Nat → IterOracle) :
    ∀ (rids : List String) (i : Nat),
      delAfterSend (runIters mp lo fetch oracle rids i).1 = true := by
  intro rids
  induction rids with
  | nil => intro i; simp [runIters, delAfterSend]
  | cons rid rest ih =>
    intro i
    rcases iterBody_cases mp lo fetch (oracle i) rid with h | h | h | ⟨p, h⟩ | ⟨p, h⟩ | ⟨p, h⟩ <;>
      cases hr : (oracle i).react <;>
      simp [runIters, h, hr, delAfterSend, ih (i + 1)]

/-- C10: the original message is only ever deleted immediately after its
standalone media post was sent successfully; and for a link-only message
whose fetch fails or whose send raises, no deletion and no media send
happen — the original survives carrying only the failure reaction. -/
theorem claim_C10_delete_only_after_send :
    (∀ (message channelPost : Option Msg) (isChannel permOk replyOk : Bool)
       (fetch : String → Except String String) (oracle : Nat → IterOracle),
        delAfterSend (handle message channelPost isChannel permOk replyOk fetch oracle).1 = true)
    ∧ (∀ (m : Msg) (rid e : String) (fetch : String → Except String String)
         (oracle : Nat → IterOracle),
        isLinkOnly m.text = true → extract m.text = [rid] →
        (fetch rid = .error e ∨ (oracle 0).send = false) →
        (oracle 0).act1 = true → (oracle 0).act2 = true → (oracle 0).react = true →
        Effect.deleteOriginal ∉ (handle (some m) none false true true fetch oracle).1
        ∧ (∀ p c, Effect.sendVideo p c ∉ (handle (some m) none false true true fetch oracle).1)
        ∧ Effect.setReaction ∈ (handle (some m) none false true true fetch oracle).1
        ∧ (handle (some m) none false true true fetch oracle).2 = true) := by
  constructor
  · intro message channelPost isChannel permOk replyOk fetch oracle
    simp only [handle]
    cases hom : oalt message channelPost with
    | none => simp [delAfterSend]
    | some eff =>
      by_cases ht : eff.text = ""
      · simp [ht, delAfterSend]
      · cases permOk
        · cases hn : (!isChannel && replyOk) <;> simp [ht, hn, delAfterSend]
        · simp [ht, delAfterSend_runIters]
  · intro m rid e fetch oracle hlo hex hfail h1 h2 hr
    have ht : m.text ≠ "" := by
      intro h0
      rw [h0] at hex
      simp [extract_empty] at hex
    simp only [handle, oalt, ht, if_false, Option.isSome_some, Bool.not_true]
    rcases hfail with hf | hs
    · simp [ht, hex, hlo, runIters, iterBody, h1, h2, hr, hf]
    · rcases hfr : fetch rid with msg | p <;>
        simp [ht, hex, hlo, runIters, iterBody, h1, h2, hr, hs, hfr]

theorem claim_C10_delete_only_after_send_witness :
    delAfterSend (handle (some ⟨"https://instagram.com/reel/ABC"⟩) none false true true
        (fun _ => .error "dl") allOk).1 = true
    ∧ Effect.deleteOriginal ∉ (handle (some ⟨"https://instagram.com/reel/ABC"⟩) none
        false true true (fun _ => .error "dl") allOk).1
    ∧ Effect.setReaction ∈ (handle (some ⟨"https://instagram.com/reel/ABC"⟩) none
        false true true (fun _ => .error "dl") allOk).1 :=
  ⟨claim_C10_delete_only_after_send.1 (some ⟨"https://instagram.com/reel/ABC"⟩) none
      false true true (fun _ => .error "dl") allOk,
   (claim_C10_delete_only_after_send.2 ⟨"https://instagram.com/reel/ABC"⟩ "ABC" "dl"
      (fun _ => .error "dl") allOk rfl (by decide) (Or.inl rfl) rfl rfl rfl).1,
   (claim_C10_delete_only_after_send.2 ⟨"https://instagram.com/reel/ABC"⟩ "ABC" "dl"
      (fun _ => .error "dl") allOk rfl (by decide) (Or.inl rfl) rfl rfl rfl).2.2.1⟩

end UpDown
